import Mathlib

/-!
# Verification of the `ran` command launcher's resolution and templating engine

Shallow embedding of the core of the `ran` launcher (src/utils.rs, src/app.rs,
src/launcher.rs, src/config.rs, src/error.rs).  Rust `HashMap`s that are only
read pointwise are modelled as `String → Option String`; the alias map, which
drives a terminating iteration, and the app index, which is filtered, are
modelled as association lists.  The recursive procedures
(`Launcher::resolve_alias_chain`'s while loop, `Launcher::find_app_inner`,
`App::resolve_recursive`) are embedded with an explicit fuel parameter;
`none` means the computation did not finish within the given fuel, so genuine
non-termination is expressed as `∀ fuel, … = none`, and termination as
sufficiency of a concrete fuel.
-/

namespace Ran

/-- An environment map (`HashMap<String, String>` used only through `get`
and `extend`), modelled by its lookup function. -/
def Env : Type := String → Option String

/-- The empty environment (`HashMap::new()`). -/
def emptyEnv : Env := fun _ => none

/-- `base.extend(add)`: per key, an entry of `add` overwrites `base`
(`std::collections::HashMap::extend`). -/
def extendEnv (base add : Env) : Env :=
  fun k => match add k with
  | some v => some v
  | none => base k

/-- `error.rs`: the `LauncherError` enum (variants not reachable from the
embedded core are omitted; `IoError`/`ParseError` payloads are summarised by
a string). -/
inductive LauncherError where
  | InvalidApp (path : String) (reason : Option String)
  | AppNotFound (query : String)
  | CircularAlias (chain : List String)
  | AmbiguousQuery (query : String) (candidates : List String)
  | IoError (info : String)
  | Other (msg : String)
  deriving DecidableEq, Repr

/-- `config.rs`: the `Config` struct.  `alias` keeps its association-list
form (it is iterated by the alias-chain resolver); `vars` and `env` are only
read pointwise. -/
structure Config where
  interactive : Bool
  editor : Option String
  «alias» : List (String × String)
  vars : String → Option String
  env : String → Option String

/-- `app.rs`: the `Meta` struct (display-only metadata). -/
structure Meta where
  name : Option String
  description : Option String
  version : Option String

/-- `app.rs`: the `Exec` struct. -/
structure Exec where
  bin : String
  args : List String

/-- `app.rs`: the `App` struct. -/
structure App where
  meta : Option Meta
  exec : Exec
  env : Option Env

/-- `launcher.rs`: the `ResolvedParts` accumulator. -/
structure ResolvedParts where
  bin : String
  args : List String
  env : Env

/-- `launcher.rs`: the `Launcher` struct.  `apps` is the name → path index
produced by `App::find_all`; `files` models the filesystem plus the TOML
deserializer (`std::fs::read_to_string` + `toml::from_str`) as a map from a
path to the parsed definition; `stdoutTty` models `atty::is(Stream::Stdout)`
and `selection` the outcome of the `dialoguer` prompt — both external
collaborators of the core. -/
structure Launcher where
  apps : List (String × String)
  files : List (String × App)
  config : Config
  stdoutTty : Bool
  selection : Option Nat

/-- `utils.rs` `sandwich_args`: puts the child args in place of the first
`%!` in the parent args, or appends the child if no `%!` is found. -/
def sandwich_args (parent child : List String) : List String :=
  match parent.findIdx? (fun arg => arg = "%!") with
  | some pos => parent.take pos ++ child ++ parent.drop (pos + 1)
  | none => parent ++ child

/-! ## String helpers

Rust string primitives (`str::split`, `str::trim`, `str::trim_matches`,
`str::starts_with`) are embedded as structurally recursive functions over
the character list of the string, so that every definition reduces in the
kernel. -/

/-- Rust `str::split(sep)` on a character list: the (possibly empty)
segments between occurrences of `sep`.  Splitting the empty string yields
one empty segment, as in Rust. -/
def splitOnChar (sep : Char) : List Char → List (List Char)
  | [] => [[]]
  | c :: rest =>
    match splitOnChar sep rest with
    | [] => [[]]
    | g :: gs => if c = sep then [] :: g :: gs else (c :: g) :: gs

/-- Rust `str::trim`: strip whitespace from both ends.  (`Char.isWhitespace`
covers the ASCII whitespace exercised by the launcher; exotic Unicode
whitespace is out of scope.) -/
def trimChars (l : List Char) : List Char :=
  ((l.dropWhile Char.isWhitespace).reverse.dropWhile Char.isWhitespace).reverse

/-- `launcher.rs` `find_app_inner`, line `let query = query.trim().trim_matches('/')`:
strip surrounding whitespace, then surrounding `/` characters. -/
def trimQuery (s : String) : String :=
  String.mk ((((trimChars s.toList).dropWhile (fun c => c = '/')).reverse.dropWhile
    (fun c => c = '/')).reverse)

/-- `launcher.rs` `find_app_inner`: `full_name.split('/').last().unwrap_or(full_name)`,
the segment of an app name after the final slash. -/
def leafName (s : String) : String :=
  String.mk ((splitOnChar '/' s.toList).getLastD s.toList)

/-- `app.rs` `resolve_recursive`: `self.exec.bin.starts_with('@')`. -/
def isRunnerRef (s : String) : Bool :=
  s.toList.head? = some '@'

/-! ## Variable expansion (`utils.rs` `expand_vars`) -/

/-- The namespace resolver inside `expand_vars`'s replacement closure:
`full_key.split('.')` matched structurally against the recognized shapes.
An unrecognized shape resolves to nothing. -/
def nsResolve (main : Launcher) (fullKey : String) : Option String :=
  match (splitOnChar '.' fullKey.toList).map String.mk with
  | ["config", "interactive"] => some (toString main.config.interactive)
  | ["config", "editor"] => main.config.editor
  | ["config", "alias", k] => List.lookup k main.config.«alias»
  | ["config", "vars", k] => main.config.vars k
  | ["config", "env", k] => main.config.env k
  | [k] => main.config.vars k
  | _ => none

/-- One pass of `Regex::new(r"%([^%]+)%").replace_all(text, closure)`:
scan left to right for non-overlapping spans `%content%` with non-empty
content free of `%`; a resolved span is replaced by its value (which is not
rescanned within the pass), an unresolved span is emitted verbatim.  The
first argument is `none` while scanning plain text and `some acc` while
inside a candidate span whose content so far is `acc` in reverse. -/
def scanAux (f : String → Option String) : Option (List Char) → List Char → List Char
  | none, [] => []
  | none, c :: rest =>
    if c = '%' then scanAux f (some []) rest else c :: scanAux f none rest
  | some acc, [] => '%' :: acc.reverse
  | some acc, c :: rest =>
    if c = '%' then
      match acc with
      | [] => '%' :: scanAux f (some []) rest
      | _ :: _ =>
        match f (String.mk acc.reverse) with
        | some v => v.toList ++ scanAux f none rest
        | none => '%' :: acc.reverse ++ '%' :: scanAux f none rest
    else scanAux f (some (c :: acc)) rest

/-- One substitution pass of `expand_vars` over a string. -/
def expandPass (main : Launcher) (s : String) : String :=
  String.mk (scanAux (nsResolve main) none s.toList)

/-- The `for _ in 0..5` loop of `expand_vars`: iterate the pass, stopping
early as soon as a pass produces no change. -/
def expandLoop (main : Launcher) : Nat → String → String
  | 0, t => t
  | n + 1, t =>
    let t' := expandPass main t
    if t' = t then t else expandLoop main n t'

/-- `utils.rs` `expand_vars`: expand `%…%` placeholders against the config
namespace, with at most 5 passes. -/
def expand_vars (text : String) (main : Launcher) : String :=
  expandLoop main 5 text

/-! ## Alias chain resolution (`launcher.rs` `resolve_alias_chain`) -/

/-- The body of `resolve_alias_chain`'s while loop, with explicit fuel
(`none` = the loop did not finish within the fuel; a separate theorem shows
the fuel chosen below always suffices, i.e. the loop terminates). -/
def aliasChainGo (al : List (String × String)) :
    Nat → List String → String → Option (Except LauncherError (List String))
  | 0, _, _ => none
  | fuel + 1, chain, current =>
    match List.lookup current al with
    | none => some (Except.ok chain)
    | some next =>
      if next ∈ chain then some (Except.error (LauncherError.CircularAlias (chain ++ [next])))
      else aliasChainGo al fuel (chain ++ [next]) next

/-- `launcher.rs` `resolve_alias_chain`: follow the alias map from
`startKey`, accumulating the visited chain, erroring on a circular
reference.  The fuel `al.length + 2` is proven sufficient
(`aliasChainGo_isSome`), so the default of `getD` is never used. -/
def resolve_alias_chain (al : List (String × String)) (startKey : String) :
    Except LauncherError (List String) :=
  (aliasChainGo al (al.length + 2) [startKey] startKey).getD (Except.ok [startKey])

/-! ## App resolution (`launcher.rs` / `utils.rs`) -/

/-- The filter inside `find_app_inner`: apps whose full slash-qualified
name or leaf name equals the (trimmed) query, in index order. -/
def appMatches (L : Launcher) (query : String) : List (String × String) :=
  L.apps.filter (fun np => np.1 = query ∨ leafName np.1 = query)

/-- `utils.rs` `app_resolver`: disambiguation of multiple matches.  With
interaction unavailable (`!launcher.config.interactive || !atty::is(Stdout)`)
it fails with `AmbiguousQuery`; otherwise the `dialoguer` prompt is modelled
by the `selection` oracle field (`none` = cancelled). -/
def app_resolver (launcher : Launcher) (query : String) («matches» : List String) :
    Except LauncherError String :=
  if ¬launcher.config.interactive ∨ ¬launcher.stdoutTty then
    Except.error (LauncherError.AmbiguousQuery query «matches»)
  else
    match launcher.selection with
    | some index =>
      match «matches».get? index with
      | some p => Except.ok p
      | none => Except.error (LauncherError.Other "cancelled.")
    | none => Except.error (LauncherError.Other "cancelled.")

/-- `launcher.rs` `find_app_inner`, with explicit fuel for the alias
recursion (`none` = no answer within the fuel). -/
def findAppInnerF (L : Launcher) : Nat → String → List String → Option (Except LauncherError String)
  | 0, _, _ => none
  | fuel + 1, query, stack =>
    if query ∈ stack then
      some (Except.error (LauncherError.CircularAlias (stack ++ [query])))
    else
      let q := trimQuery query
      if q = "" then some (Except.error (LauncherError.AppNotFound q))
      else
        match List.lookup q L.config.«alias» with
        | some app => findAppInnerF L fuel app (stack ++ [q])
        | none =>
          match appMatches L q with
          | [] => some (Except.error (LauncherError.AppNotFound q))
          | [m] => some (Except.ok m.2)
          | ms => some (app_resolver L q (ms.map Prod.snd))

/-- `launcher.rs` `find_app`: resolution starts from a fresh empty stack. -/
def find_app (L : Launcher) (fuel : Nat) (query : String) :
    Option (Except LauncherError String) :=
  findAppInnerF L fuel query []

/-- `launcher.rs` `load_app`: find the app's path, then read and parse its
definition file (the filesystem and TOML parser are modelled by `L.files`;
a missing entry is the `IoError`/`ParseError` failure path). -/
def loadAppF (L : Launcher) (fuel : Nat) (query : String) :
    Option (Except LauncherError App) :=
  match find_app L fuel query with
  | none => none
  | some (Except.error e) => some (Except.error e)
  | some (Except.ok path) =>
    match List.lookup path L.files with
    | some app => some (Except.ok app)
    | none => some (Except.error (LauncherError.IoError path))

/-- `app.rs` `App::resolve_recursive`, with explicit fuel shared between the
runner recursion and each nested `load_app` (`none` = the recursion did not
finish within the fuel; `∀ fuel, … = none` therefore witnesses genuine
non-termination). -/
def resolveRecursiveF (L : Launcher) : Nat → App → Option (Except LauncherError ResolvedParts)
  | 0, _ => none
  | fuel + 1, app =>
    let inner : Option (Except LauncherError ResolvedParts) :=
      if isRunnerRef app.exec.bin then
        if app.exec.bin.toList.length < 2 then
          some (Except.error (LauncherError.InvalidApp "" (some "app name cannot be empty!")))
        else
          match loadAppF L fuel (String.mk (app.exec.bin.toList.drop 1)) with
          | none => none
          | some (Except.error e) => some (Except.error e)
          | some (Except.ok runnerApp) => resolveRecursiveF L fuel runnerApp
      else
        some (Except.ok ⟨app.exec.bin, [], emptyEnv⟩)
    match inner with
    | none => none
    | some (Except.error e) => some (Except.error e)
    | some (Except.ok parts) =>
      some (Except.ok
        { bin := parts.bin
          args := if parts.args = [] then app.exec.args else sandwich_args parts.args app.exec.args
          env := match app.env with
                 | some e => extendEnv parts.env e
                 | none => parts.env })

/-- `launcher.rs` `launch_app`, step 3 (lines 128–131): the final launch
environment layering — CLI-supplied env, extended by the global config env,
extended by the resolved per-app env. -/
def launchFinalEnv (L : Launcher) (cliEnv partsEnv : Env) : Env :=
  extendEnv (extendEnv cliEnv L.config.env) partsEnv

/-! ## Theorems about the argument merger -/

theorem sandwich_args_nil (C : List String) : sandwich_args [] C = C := by
  simp [sandwich_args, List.findIdx?]

theorem sandwich_args_marker (P C : List String) :
    sandwich_args ("%!" :: P) C = C ++ P := by
  simp [sandwich_args, List.findIdx?]

theorem sandwich_args_cons_ne {a : String} (ha : a ≠ "%!") (P C : List String) :
    sandwich_args (a :: P) C = a :: sandwich_args P C := by
  simp only [sandwich_args, List.findIdx?, ha, decide_False, Bool.false_eq_true, if_false,
    List.findIdx?_succ]
  cases h : List.findIdx? (fun arg => decide (arg = "%!")) P 0 with
  | none => simp
  | some pos => simp

theorem sandwich_args_of_not_mem {P : List String} (h : "%!" ∉ P) (C : List String) :
    sandwich_args P C = P ++ C := by
  induction P with
  | nil => simp [sandwich_args_nil]
  | cons a P ih =>
    have ha : a ≠ "%!" := fun hc => h (hc ▸ List.mem_cons_self a P)
    have hP : "%!" ∉ P := fun hc => h (List.mem_cons_of_mem a hc)
    rw [sandwich_args_cons_ne ha, ih hP, List.cons_append]

theorem sandwich_args_of_mem {P : List String} (h : "%!" ∈ P) (C : List String) :
    ∃ A B, P = A ++ "%!" :: B ∧ "%!" ∉ A ∧ sandwich_args P C = A ++ C ++ B := by
  induction P with
  | nil => simp at h
  | cons a P ih =>
    by_cases ha : a = "%!"
    · subst ha
      exact ⟨[], P, rfl, by simp, by simp [sandwich_args_marker]⟩
    · have hP : "%!" ∈ P := by
        rcases List.mem_cons.mp h with h1 | h2
        · exact absurd h1.symm ha
        · exact h2
      obtain ⟨A, B, hPeq, hA, hs⟩ := ih hP
      refine ⟨a :: A, B, by rw [hPeq, List.cons_append], ?_, ?_⟩
      · intro hc
        rcases List.mem_cons.mp hc with h1 | h2
        · exact ha h1.symm
        · exact hA h2
      · rw [sandwich_args_cons_ne ha, hs]
        simp

/-- C2: `sandwich_args` splits the parent at its first `%!` element, splicing
in the child there and keeping the rest of the parent (any later `%!`
elements included) verbatim; without a `%!` element it appends the child to
the parent.  The two example instances of the spec also hold. -/
theorem c2_sandwich_spec :
    (∀ P C : List String, "%!" ∈ P →
      ∃ A B, P = A ++ "%!" :: B ∧ "%!" ∉ A ∧ sandwich_args P C = A ++ C ++ B)
    ∧ (∀ P C : List String, "%!" ∉ P → sandwich_args P C = P ++ C)
    ∧ sandwich_args ["a", "%!", "b"] ["x", "y"] = ["a", "x", "y", "b"]
    ∧ sandwich_args ["a", "b"] ["x", "y"] = ["a", "b", "x", "y"] :=
  ⟨fun _ C h => sandwich_args_of_mem h C,
   fun _ C h => sandwich_args_of_not_mem h C,
   by decide, by decide⟩

/-- Witness for C2 at concrete inputs. -/
theorem c2_sandwich_spec_witness :
    ∃ A B, (["a", "%!", "b"] : List String) = A ++ "%!" :: B ∧ "%!" ∉ A ∧
      sandwich_args ["a", "%!", "b"] ["x", "y"] = A ++ ["x", "y"] ++ B :=
  c2_sandwich_spec.1 ["a", "%!", "b"] ["x", "y"] (by decide)

/-! ## Theorems about the variable expander -/

theorem toList_mk (l : List Char) : (String.mk l).toList = l := rfl

theorem mk_toList (s : String) : String.mk s.toList = s := rfl

/-- Whether the placeholder scanner would find a candidate `%…%` span with
non-empty content, starting from the given mode (`none` = scanning plain
text, `some b` = inside a span whose content so far is non-empty iff `b`). -/
def hasSpanAux : Option Bool → List Char → Bool
  | _, [] => false
  | none, c :: rest =>
    if c = '%' then hasSpanAux (some false) rest else hasSpanAux none rest
  | some b, c :: rest =>
    if c = '%' then
      if b then true else hasSpanAux (some false) rest
    else hasSpanAux (some true) rest

theorem scanAux_eq_of_no_span (f : String → Option String) :
    ∀ (l : List Char) (macc : Option (List Char)),
      hasSpanAux (macc.map fun acc => !acc.isEmpty) l = false →
      scanAux f macc l =
        (match macc with
         | none => []
         | some acc => '%' :: acc.reverse) ++ l := by
  intro l
  induction l with
  | nil =>
    intro macc _
    cases macc <;> simp [scanAux]
  | cons c rest ih =>
    intro macc h
    cases macc with
    | none =>
      by_cases hc : c = '%'
      · subst hc
        simp only [hasSpanAux, if_pos rfl, Option.map_some'] at h ⊢
        have h' := ih (some []) (by simpa using h)
        simp only [scanAux, if_pos rfl]
        simpa using h'
      · simp only [hasSpanAux, if_neg hc, Option.map_none'] at h ⊢
        have h' := ih none (by simpa using h)
        simp [scanAux, if_neg hc, h']
    | some acc =>
      by_cases hc : c = '%'
      · subst hc
        cases acc with
        | nil =>
          simp only [hasSpanAux, Option.map_some', List.isEmpty_nil, Bool.not_true,
            if_pos rfl, if_neg (by simp : ¬False)] at h
          have h' := ih (some []) (by simpa [hasSpanAux] using h)
          simp [scanAux, h']
        | cons a as =>
          exfalso
          simp [hasSpanAux] at h
      · cases acc with
        | nil =>
          simp only [hasSpanAux, Option.map_some', List.isEmpty_nil, Bool.not_true,
            if_neg hc] at h
          have h' := ih (some [c]) (by simpa using h)
          simp [scanAux, if_neg hc, h']
        | cons a as =>
          simp only [hasSpanAux, Option.map_some', List.isEmpty_cons, Bool.not_false,
            if_neg hc] at h
          have h' := ih (some (c :: a :: as)) (by simpa using h)
          simp [scanAux, if_neg hc, h']

theorem hasSpanAux_of_no_percent :
    ∀ (l : List Char), (∀ c ∈ l, c ≠ '%') → ∀ mode, hasSpanAux mode l = false := by
  intro l
  induction l with
  | nil => intro _ mode; cases mode <;> rfl
  | cons c rest ih =>
    intro h mode
    have hc : c ≠ '%' := h c (List.mem_cons_self c rest)
    have hrest : ∀ c ∈ rest, c ≠ '%' := fun x hx => h x (List.mem_cons_of_mem c hx)
    cases mode with
    | none => simpa [hasSpanAux, if_neg hc] using ih hrest none
    | some b => simpa [hasSpanAux, if_neg hc] using ih hrest (some true)

theorem expandPass_of_no_span {s : String} (L : Launcher)
    (h : hasSpanAux none s.toList = false) : expandPass L s = s := by
  unfold expandPass
  rw [scanAux_eq_of_no_span (nsResolve L) s.toList none (by simpa using h)]
  simp [mk_toList]

theorem expandLoop_of_fix {t : String} (L : Launcher) (n : Nat)
    (h : expandPass L t = t) : expandLoop L n t = t := by
  cases n with
  | zero => rfl
  | succ n => simp [expandLoop, h]

/-- C10: variable expansion is the identity on text without a candidate
placeholder span, in particular on any text with no `%` character at all. -/
theorem c10_expand_vars_identity :
    (∀ (L : Launcher) (s : String), hasSpanAux none s.toList = false → expand_vars s L = s)
    ∧ (∀ (L : Launcher) (s : String), (∀ c ∈ s.toList, c ≠ '%') → expand_vars s L = s) := by
  constructor
  · intro L s h
    exact expandLoop_of_fix L 5 (expandPass_of_no_span L h)
  · intro L s h
    exact expandLoop_of_fix L 5
      (expandPass_of_no_span L (hasSpanAux_of_no_percent s.toList h none))

/-- A launcher with an empty index and a defaulted config, for concrete
witnesses. -/
def emptyLauncher : Launcher :=
  ⟨[], [], ⟨true, none, [], fun _ => none, fun _ => none⟩, false, none⟩

/-- Witness for C10 at a placeholder-free binary path. -/
theorem c10_expand_vars_identity_witness :
    expand_vars "/usr/bin/doom" emptyLauncher = "/usr/bin/doom" :=
  c10_expand_vars_identity.2 emptyLauncher "/usr/bin/doom" (by decide)

theorem scanAux_span (f : String → Option String) (rest : List Char) :
    ∀ (body acc : List Char), (∀ c ∈ body, c ≠ '%') →
      scanAux f (some acc) (body ++ '%' :: rest) =
        if acc.reverse ++ body = [] then '%' :: scanAux f (some []) rest
        else
          match f (String.mk (acc.reverse ++ body)) with
          | some v => v.toList ++ scanAux f none rest
          | none => ('%' :: (acc.reverse ++ body)) ++ '%' :: scanAux f none rest := by
  intro body
  induction body with
  | nil =>
    intro acc _
    cases acc with
    | nil => simp [scanAux]
    | cons a as =>
      rw [if_neg (by simp)]
      cases hf : f (String.mk ((a :: as).reverse ++ [])) with
      | some v =>
        simp only [List.append_nil, List.reverse_cons] at hf
        simp [scanAux, hf]
      | none =>
        simp only [List.append_nil, List.reverse_cons] at hf
        simp [scanAux, hf]
  | cons c body ih =>
    intro acc h
    have hc : c ≠ '%' := h c (List.mem_cons_self c body)
    have hbody : ∀ x ∈ body, x ≠ '%' := fun x hx => h x (List.mem_cons_of_mem c hx)
    rw [List.cons_append,
      show scanAux f (some acc) (c :: (body ++ '%' :: rest)) =
        scanAux f (some (c :: acc)) (body ++ '%' :: rest) from by simp [scanAux, hc],
      ih (c :: acc) hbody]
    have hrw : (c :: acc).reverse ++ body = acc.reverse ++ (c :: body) := by simp
    rw [hrw]

theorem expandPass_span_some {L : Launcher} {body : List Char} {v : String}
    (hb : ∀ c ∈ body, c ≠ '%') (hne : body ≠ [])
    (hv : nsResolve L (String.mk body) = some v) :
    expandPass L (String.mk ('%' :: (body ++ ['%']))) = v := by
  unfold expandPass
  rw [toList_mk,
    show scanAux (nsResolve L) none ('%' :: (body ++ ['%'])) =
      scanAux (nsResolve L) (some []) (body ++ ['%']) from by simp [scanAux],
    show (body ++ ['%'] : List Char) = body ++ '%' :: [] from rfl,
    scanAux_span (nsResolve L) [] body [] hb,
    if_neg (by simpa using hne)]
  simp only [List.reverse_nil, List.nil_append, hv]
  simp [scanAux, mk_toList]

theorem expandPass_span_none {L : Launcher} {body : List Char}
    (hb : ∀ c ∈ body, c ≠ '%') (hne : body ≠ [])
    (hv : nsResolve L (String.mk body) = none) :
    expandPass L (String.mk ('%' :: (body ++ ['%']))) = String.mk ('%' :: (body ++ ['%'])) := by
  unfold expandPass
  rw [toList_mk,
    show scanAux (nsResolve L) none ('%' :: (body ++ ['%'])) =
      scanAux (nsResolve L) (some []) (body ++ ['%']) from by simp [scanAux],
    show (body ++ ['%'] : List Char) = body ++ '%' :: [] from rfl,
    scanAux_span (nsResolve L) [] body [] hb,
    if_neg (by simpa using hne)]
  simp [scanAux, hv]

theorem expand_vars_of_two {L : Launcher} {s v : String}
    (h1 : expandPass L s = v) (h2 : expandPass L v = v) :
    expand_vars s L = v := by
  by_cases hs : v = s
  · subst hs
    exact expandLoop_of_fix L 5 h1
  · show expandLoop L 5 s = v
    rw [show expandLoop L 5 s = expandLoop L 4 (expandPass L s) from by
      simp [expandLoop, h1, hs]]
    rw [h1]
    exact expandLoop_of_fix L 4 h2

theorem expandLoop_iterate (L : Launcher) :
    ∀ (n : Nat) (t : String), ∃ k, k ≤ n ∧ expandLoop L n t = Nat.iterate (expandPass L) k t := by
  intro n
  induction n with
  | zero => exact fun t => ⟨0, Nat.le_refl 0, rfl⟩
  | succ n ih =>
    intro t
    by_cases h : expandPass L t = t
    · exact ⟨0, Nat.zero_le _, by simp [expandLoop, h]⟩
    · obtain ⟨k, hk, he⟩ := ih (expandPass L t)
      refine ⟨k + 1, Nat.succ_le_succ hk, ?_⟩
      rw [show expandLoop L (n + 1) t = expandLoop L n (expandPass L t) from by
        simp [expandLoop, h], he, Function.iterate_succ_apply]

/-- A launcher whose config maps the variable `a` to the placeholder `%a%`
referring to itself. -/
def selfRefLauncher : Launcher :=
  ⟨[], [], ⟨true, none, [], fun k => if k = "a" then some "%a%" else none, fun _ => none⟩,
    false, none⟩

/-- A launcher with a six-level variable indirection chain
`v1 → … → v6 → "done"`, needing six passes to resolve fully. -/
def chainLauncher : Launcher :=
  ⟨[], [],
    ⟨true, none, [],
      fun k =>
        if k = "v1" then some "%v2%" else if k = "v2" then some "%v3%"
        else if k = "v3" then some "%v4%" else if k = "v4" then some "%v5%"
        else if k = "v5" then some "%v6%" else if k = "v6" then some "done" else none,
      fun _ => none⟩,
    false, none⟩

/-- C3: `expand_vars` is total and its result is some `≤ 5`-fold iterate of
the single substitution pass (at most 5 passes, stopping early at a fixed
point); a pass-level fixed point is returned unchanged, so a
self-referential variable terminates at its own placeholder; the empty
placeholder `%%` is left unexpanded; and a six-level indirection chain is
not fully resolved within the bound. -/
theorem c3_expand_vars_bounded_iteration :
    (∀ (L : Launcher) (t : String), ∃ k, k ≤ 5 ∧
      expand_vars t L = Nat.iterate (expandPass L) k t)
    ∧ (∀ (L : Launcher) (t : String), expandPass L t = t → expand_vars t L = t)
    ∧ (∀ L : Launcher, L.config.vars "a" = some "%a%" → expand_vars "%a%" L = "%a%")
    ∧ (∀ L : Launcher, expand_vars "%%" L = "%%")
    ∧ expand_vars "%v1%" chainLauncher = "%v6%" ∧ ("%v6%" : String) ≠ "done" := by
  refine ⟨fun L t => expandLoop_iterate L 5 t, fun L t h => expandLoop_of_fix L 5 h,
    ?_, fun L => expandLoop_of_fix L 5 rfl, by decide, by decide⟩
  intro L h
  have hv : nsResolve L (String.mk "a".toList) = some "%a%" := by
    rw [show nsResolve L (String.mk "a".toList) = L.config.vars "a" from rfl, h]
  have hp := expandPass_span_some (by decide) (by decide) hv
  rw [show String.mk ('%' :: ("a".toList ++ ['%'])) = "%a%" from by decide] at hp
  exact expandLoop_of_fix L 5 hp

/-- Witness for C3 at concrete inputs. -/
theorem c3_expand_vars_bounded_iteration_witness :
    (∃ k, k ≤ 5 ∧ expand_vars "abc" emptyLauncher = Nat.iterate (expandPass emptyLauncher) k "abc")
    ∧ expand_vars "abc" emptyLauncher = "abc"
    ∧ expand_vars "%a%" selfRefLauncher = "%a%" :=
  ⟨c3_expand_vars_bounded_iteration.1 emptyLauncher "abc",
   c3_expand_vars_bounded_iteration.2.1 emptyLauncher "abc" (by decide),
   c3_expand_vars_bounded_iteration.2.2.1 selfRefLauncher (by decide)⟩

/-- A launcher whose config has `vars = {"foo" ↦ "bar"}`. -/
def fooLauncher : Launcher :=
  ⟨[], [], ⟨true, none, [], fun k => if k = "foo" then some "bar" else none, fun _ => none⟩,
    false, none⟩

/-- C4 counterexample: with `vars = {"foo" ↦ "bar"}`, the text
`"%vars.foo%"` does NOT expand to `"bar"` — the two-segment key
`vars.foo` matches no recognized namespace shape, so the span is left
verbatim.  (Only `%config.vars.foo%` and the bare `%foo%` reach the vars
map.) -/
theorem c4_counterexample_vars_foo :
    fooLauncher.config.vars "foo" = some "bar"
    ∧ expand_vars "%vars.foo%" fooLauncher = "%vars.foo%"
    ∧ expand_vars "%vars.foo%" fooLauncher ≠ "bar" :=
  ⟨by decide, by decide, by decide⟩

/-- C4 (amended): with `vars` containing `foo ↦ bar`, expanding
`"%config.vars.foo%"` or `"%foo%"` yields `"bar"` while `"%vars.foo%"` is
left unchanged (unrecognized two-segment shape); with `foo` undefined all
three texts are left unchanged. -/
theorem c4_namespace_resolution (L : Launcher) :
    (L.config.vars "foo" = some "bar" →
      expand_vars "%config.vars.foo%" L = "bar"
      ∧ expand_vars "%foo%" L = "bar"
      ∧ expand_vars "%vars.foo%" L = "%vars.foo%")
    ∧ (L.config.vars "foo" = none →
      expand_vars "%config.vars.foo%" L = "%config.vars.foo%"
      ∧ expand_vars "%foo%" L = "%foo%"
      ∧ expand_vars "%vars.foo%" L = "%vars.foo%") := by
  have hv3 : nsResolve L (String.mk "vars.foo".toList) = none := rfl
  have p3 : expandPass L "%vars.foo%" = "%vars.foo%" := by
    have h0 := @expandPass_span_none L "vars.foo".toList (by decide) (by decide) hv3
    rwa [show String.mk ('%' :: ("vars.foo".toList ++ ['%'])) = "%vars.foo%" from by decide] at h0
  constructor
  · intro h
    have hv1 : nsResolve L (String.mk "config.vars.foo".toList) = some "bar" := by
      rw [show nsResolve L (String.mk "config.vars.foo".toList) = L.config.vars "foo" from rfl, h]
    have hv2 : nsResolve L (String.mk "foo".toList) = some "bar" := by
      rw [show nsResolve L (String.mk "foo".toList) = L.config.vars "foo" from rfl, h]
    have p1 := @expandPass_span_some L "config.vars.foo".toList "bar" (by decide) (by decide) hv1
    rw [show String.mk ('%' :: ("config.vars.foo".toList ++ ['%'])) = "%config.vars.foo%"
      from by decide] at p1
    have p2 := @expandPass_span_some L "foo".toList "bar" (by decide) (by decide) hv2
    rw [show String.mk ('%' :: ("foo".toList ++ ['%'])) = "%foo%" from by decide] at p2
    exact ⟨expand_vars_of_two p1 rfl, expand_vars_of_two p2 rfl, expandLoop_of_fix L 5 p3⟩
  · intro h
    have hv1 : nsResolve L (String.mk "config.vars.foo".toList) = none := by
      rw [show nsResolve L (String.mk "config.vars.foo".toList) = L.config.vars "foo" from rfl, h]
    have hv2 : nsResolve L (String.mk "foo".toList) = none := by
      rw [show nsResolve L (String.mk "foo".toList) = L.config.vars "foo" from rfl, h]
    have p1 := @expandPass_span_none L "config.vars.foo".toList (by decide) (by decide) hv1
    rw [show String.mk ('%' :: ("config.vars.foo".toList ++ ['%'])) = "%config.vars.foo%"
      from by decide] at p1
    have p2 := @expandPass_span_none L "foo".toList (by decide) (by decide) hv2
    rw [show String.mk ('%' :: ("foo".toList ++ ['%'])) = "%foo%" from by decide] at p2
    exact ⟨expandLoop_of_fix L 5 p1, expandLoop_of_fix L 5 p2, expandLoop_of_fix L 5 p3⟩

/-- Witness for C4's amended claim at concrete configs. -/
theorem c4_namespace_resolution_witness :
    expand_vars "%config.vars.foo%" fooLauncher = "bar"
    ∧ expand_vars "%config.vars.foo%" emptyLauncher = "%config.vars.foo%" :=
  ⟨((c4_namespace_resolution fooLauncher).1 (by decide)).1,
   ((c4_namespace_resolution emptyLauncher).2 (by decide)).1⟩

/-! ## Theorems about the alias chain resolver -/

/-- The orbit of the alias map from a start key: the key reached after `n`
successful lookups. -/
def aliasSeq (al : List (String × String)) (start : String) : Nat → Option String
  | 0 => some start
  | n + 1 => (aliasSeq al start n).bind fun k => List.lookup k al

/-- A cycle of the alias map is reachable from `start`: the orbit visits
some key twice. -/
def cycleReachable (al : List (String × String)) (start : String) : Prop :=
  ∃ i j x, i < j ∧ aliasSeq al start i = some x ∧ aliasSeq al start j = some x

theorem aliasSeq_isSome_mono {al : List (String × String)} {start : String} :
    ∀ n m, m ≤ n → (aliasSeq al start n).isSome → (aliasSeq al start m).isSome := by
  intro n
  induction n with
  | zero =>
    intro m hm h
    exact Nat.le_zero.mp hm ▸ h
  | succ n ih =>
    intro m hm h
    rcases Nat.lt_or_ge m (n + 1) with hlt | hge
    · have hn : (aliasSeq al start n).isSome := by
        cases hy : aliasSeq al start n with
        | none => rw [show aliasSeq al start (n+1) = (aliasSeq al start n).bind
            (fun k => List.lookup k al) from rfl, hy] at h; simp at h
        | some y => simp
      exact ih m (Nat.lt_succ_iff.mp hlt) hn
    · have : m = n + 1 := Nat.le_antisymm hm hge
      exact this ▸ h

theorem lookup_some_mem_keys {l : List (String × String)} {k v : String}
    (h : List.lookup k l = some v) : k ∈ l.map Prod.fst := by
  induction l with
  | nil => simp [List.lookup] at h
  | cons p t ih =>
    by_cases hk : k = p.1
    · simp [hk]
    · rw [show List.lookup k (p :: t) = List.lookup k t from by
        cases p with
        | mk a b => simp [List.lookup, show (k == a) = false from by
            simpa using hk]] at h
      exact List.mem_cons_of_mem _ (ih h)

theorem length_filter_not_mem_le (chain : List String) (k : String) :
    ∀ t : List String,
      (t.filter fun x => x ∉ chain ++ [k]).length ≤ (t.filter fun x => x ∉ chain).length := by
  intro t
  induction t with
  | nil => simp
  | cons a t ih =>
    by_cases ha : a ∈ chain
    · have h1 : (a ∉ chain ++ [k]) = False := by simp [ha]
      have h2 : (a ∉ chain) = False := by simp [ha]
      simp only [List.filter_cons, h1, h2, decide_False]
      exact ih
    · by_cases hak : a = k
      · simp only [List.filter_cons, show (decide (a ∉ chain ++ [k])) = false from by
          simp [hak], show (decide (a ∉ chain)) = true from by simpa using ha]
        exact Nat.le_succ_of_le ih
      · simp only [List.filter_cons, show (decide (a ∉ chain ++ [k])) = true from by
          simp [ha, hak], show (decide (a ∉ chain)) = true from by simpa using ha]
        simpa using ih

theorem length_filter_not_mem_lt {keys chain : List String} {k : String}
    (hk : k ∈ keys) (hnk : k ∉ chain) :
    (keys.filter fun x => x ∉ chain ++ [k]).length < (keys.filter fun x => x ∉ chain).length := by
  induction keys with
  | nil => simp at hk
  | cons a t ih =>
    by_cases hak : a = k
    · subst hak
      simp only [List.filter_cons, show (decide (a ∉ chain ++ [a])) = false from by simp,
        show (decide (a ∉ chain)) = true from by simpa using hnk]
      exact Nat.lt_succ_of_le (length_filter_not_mem_le chain a t)
    · have hk' : k ∈ t := by
        rcases List.mem_cons.mp hk with h | h
        · exact absurd h.symm hak
        · exact h
      by_cases ha : a ∈ chain
      · simp only [List.filter_cons, show (decide (a ∉ chain ++ [k])) = false from by
          simp [ha], show (decide (a ∉ chain)) = false from by simpa using ha]
        exact ih hk'
      · simp only [List.filter_cons, show (decide (a ∉ chain ++ [k])) = true from by
          simp [ha, hak], show (decide (a ∉ chain)) = true from by simpa using ha]
        exact Nat.succ_lt_succ (ih hk')

/-- The while loop of `resolve_alias_chain` always terminates: the fuel
budget `(number of alias keys outside the chain) + 2` suffices. -/
theorem aliasChainGo_isSome (al : List (String × String)) :
    ∀ (fuel : Nat) (chain : List String) (current : String),
      ((al.map Prod.fst).filter fun x => x ∉ chain).length + 2 ≤ fuel →
      aliasChainGo al fuel chain current ≠ none := by
  intro fuel
  induction fuel using Nat.strong_induction_on with
  | _ fuel ih =>
    intro chain current hfuel
    match fuel, hfuel with
    | fuel + 1, hfuel =>
      cases hcur : List.lookup current al with
      | none => simp [aliasChainGo, hcur]
      | some next =>
        by_cases hmem : next ∈ chain
        · simp [aliasChainGo, hcur, hmem]
        · rw [show aliasChainGo al (fuel + 1) chain current =
            aliasChainGo al fuel (chain ++ [next]) next from by
              simp [aliasChainGo, hcur, hmem]]
          cases hnext : List.lookup next al with
          | none =>
            match fuel, hfuel with
            | fuel + 1, _ => simp [aliasChainGo, hnext]
          | some next2 =>
            have hk : next ∈ al.map Prod.fst := lookup_some_mem_keys hnext
            have hlt := length_filter_not_mem_lt hk hmem
            exact ih fuel (Nat.lt_succ_self fuel) (chain ++ [next]) next (by omega)

theorem get?_concat_self {α : Type} (pre : List α) (a : α) :
    (pre ++ [a]).get? pre.length = some a :=
  List.get?_concat_length pre a

/-- Characterization of the alias-chain loop: starting from a chain that is
the exact orbit prefix of `start`, an `ok` result is a duplicate-free orbit
prefix whose end has no further alias entry, and an `error` result is a
`CircularAlias` carrying an orbit prefix whose appended last key already
occurs in it. -/
theorem aliasChainGo_spec (al : List (String × String)) (start : String) :
    ∀ (fuel : Nat) (chain : List String) (current : String),
      chain ≠ [] →
      (∃ pre, chain = pre ++ [current]) →
      (∀ j, j < chain.length → aliasSeq al start j = chain.get? j) →
      chain.Nodup →
      (∀ c, aliasChainGo al fuel chain current = some (Except.ok c) →
        c ≠ [] ∧ c.Nodup ∧ (∀ j, j < c.length → aliasSeq al start j = c.get? j) ∧
          aliasSeq al start c.length = none)
      ∧ (∀ e, aliasChainGo al fuel chain current = some (Except.error e) →
        ∃ c x, e = LauncherError.CircularAlias (c ++ [x]) ∧ x ∈ c ∧
          (∀ j, j < (c ++ [x]).length → aliasSeq al start j = (c ++ [x]).get? j)) := by
  intro fuel
  induction fuel with
  | zero =>
    intro chain current _ _ _ _
    constructor
    · intro c hc; simp [aliasChainGo] at hc
    · intro e he; simp [aliasChainGo] at he
  | succ fuel ih =>
    intro chain current hne hpre hidx hnd
    obtain ⟨pre, hpreeq⟩ := hpre
    have hlen : chain.length = pre.length + 1 := by simp [hpreeq]
    have hcuridx : aliasSeq al start pre.length = some current := by
      have := hidx pre.length (by omega)
      rw [hpreeq, get?_concat_self] at this
      exact this
    have hseqlen : aliasSeq al start chain.length =
        List.lookup current al := by
      rw [hlen, show aliasSeq al start (pre.length + 1) =
        (aliasSeq al start pre.length).bind (fun k => List.lookup k al) from rfl, hcuridx]
      rfl
    cases hcur : List.lookup current al with
    | none =>
      constructor
      · intro c hc
        rw [show aliasChainGo al (fuel + 1) chain current = some (Except.ok chain) from by
          simp [aliasChainGo, hcur]] at hc
        have hceq : c = chain := by
          cases hc; rfl
        subst hceq
        exact ⟨hne, hnd, hidx, by rw [hseqlen, hcur]⟩
      · intro e he
        rw [show aliasChainGo al (fuel + 1) chain current = some (Except.ok chain) from by
          simp [aliasChainGo, hcur]] at he
        cases he
    | some next =>
      have hidx' : ∀ j, j < (chain ++ [next]).length → aliasSeq al start j = (chain ++ [next]).get? j := by
        intro j hj
        rcases Nat.lt_or_ge j chain.length with hlt | hge
        · rw [List.get?_append hlt]
          exact hidx j hlt
        · have hj' : j = chain.length := by
            simp only [List.length_append, List.length_singleton] at hj
            omega
          subst hj'
          rw [get?_concat_self, hseqlen, hcur]
      by_cases hmem : next ∈ chain
      · constructor
        · intro c hc
          rw [show aliasChainGo al (fuel + 1) chain current =
            some (Except.error (LauncherError.CircularAlias (chain ++ [next]))) from by
              simp [aliasChainGo, hcur, hmem]] at hc
          cases hc
        · intro e he
          rw [show aliasChainGo al (fuel + 1) chain current =
            some (Except.error (LauncherError.CircularAlias (chain ++ [next]))) from by
              simp [aliasChainGo, hcur, hmem]] at he
          have heeq : e = LauncherError.CircularAlias (chain ++ [next]) := by
            cases he; rfl
          exact ⟨chain, next, heeq, hmem, hidx'⟩
      · rw [show aliasChainGo al (fuel + 1) chain current =
          aliasChainGo al fuel (chain ++ [next]) next from by
            simp [aliasChainGo, hcur, hmem]]
        have hnd' : (chain ++ [next]).Nodup := by
          simp [List.nodup_append, hnd, hmem]
        exact ih (chain ++ [next]) next (by simp) ⟨chain, rfl⟩ hidx' hnd'

theorem chain'_of_orbit {al : List (String × String)} {start : String} {c : List String}
    (hidx : ∀ j, j < c.length → aliasSeq al start j = c.get? j) :
    List.Chain' (fun a b => List.lookup a al = some b) c := by
  rw [List.chain'_iff_get]
  intro i h
  have hi : i < c.length := by omega
  have hi1 : i + 1 < c.length := by omega
  have e1 := hidx i hi
  have e2 := hidx (i + 1) hi1
  rw [List.get?_eq_get hi] at e1
  rw [List.get?_eq_get hi1] at e2
  rw [show aliasSeq al start (i + 1) =
    (aliasSeq al start i).bind (fun k => List.lookup k al) from rfl, e1] at e2
  simpa using e2

/-- C5: on an alias map with no cycle reachable from the start key,
`resolve_alias_chain` returns `Ok` with a chain that begins at the start
key, follows the alias map link by link, and ends at a key absent from the
map; on an alias map with a reachable cycle it fails with `CircularAlias`
whose chain is the exact visited trace (it begins at the start key and
follows the map link by link) and whose last element — the repeated key,
appended after the membership check — already occurs earlier in the
chain. -/
theorem c5_resolve_alias_chain (al : List (String × String)) (start : String) :
    (¬cycleReachable al start →
      ∃ c, resolve_alias_chain al start = Except.ok c ∧
        c.head? = some start ∧
        List.Chain' (fun a b => List.lookup a al = some b) c ∧
        ∃ h : c ≠ [], List.lookup (c.getLast h) al = none)
    ∧ (cycleReachable al start →
      ∃ c x, resolve_alias_chain al start = Except.error (LauncherError.CircularAlias (c ++ [x])) ∧
        x ∈ c ∧
        (c ++ [x]).head? = some start ∧
        List.Chain' (fun a b => List.lookup a al = some b) (c ++ [x])) := by
  have hsome := aliasChainGo_isSome al (al.length + 2) [start] start (by
    have h1 := List.length_filter_le (fun x => decide (x ∉ ([start] : List String)))
      (al.map Prod.fst)
    simp only [List.length_map] at h1
    omega)
  have hspec := aliasChainGo_spec al start (al.length + 2) [start] start (by simp)
    ⟨[], rfl⟩ (by
      intro j hj
      have hj0 : j = 0 := by simpa using Nat.lt_one_iff.mp (by simpa using hj)
      subst hj0
      rfl) (List.nodup_singleton start)
  cases hgo : aliasChainGo al (al.length + 2) [start] start with
  | none => exact absurd hgo hsome
  | some r =>
    have hres : resolve_alias_chain al start = r := by
      unfold resolve_alias_chain
      rw [hgo]
      rfl
    cases r with
    | ok c =>
      obtain ⟨hcne, hcnd, hcidx, hcnone⟩ := hspec.1 c hgo
      have hnocycle : ¬cycleReachable al start := by
        rintro ⟨i, j, x, hij, hi, hj⟩
        have hjlt : j < c.length := by
          by_contra hge
          have : (aliasSeq al start c.length).isSome :=
            aliasSeq_isSome_mono j c.length (by omega) (by rw [hj]; rfl)
          rw [hcnone] at this
          simp at this
        have hilt : i < c.length := by omega
        have ei := hcidx i hilt
        have ej := hcidx j hjlt
        rw [List.get?_eq_get hilt] at ei
        rw [List.get?_eq_get hjlt] at ej
        rw [hi] at ei
        rw [hj] at ej
        have hgeq : c.get ⟨i, hilt⟩ = c.get ⟨j, hjlt⟩ :=
          Option.some.inj (ei.symm.trans ej)
        have hfin := (List.Nodup.get_inj_iff hcnd).mp hgeq
        have : i = j := congrArg Fin.val hfin
        omega
      constructor
      · intro _
        refine ⟨c, hres, ?_, chain'_of_orbit hcidx, ?_⟩
        · have h0 := hcidx 0 (by
            cases c with
            | nil => exact absurd rfl hcne
            | cons a t => simp)
          rw [show aliasSeq al start 0 = some start from rfl] at h0
          cases c with
          | nil => exact absurd rfl hcne
          | cons a t => simpa using h0.symm
        · refine ⟨hcne, ?_⟩
          have hlast : c.get? (c.length - 1) = some (c.getLast hcne) := by
            rw [List.getLast_eq_get]
            exact List.get?_eq_get (by
              cases c with
              | nil => exact absurd rfl hcne
              | cons a t => simp)
          have hclen : c.length - 1 + 1 = c.length := by
            cases c with
            | nil => exact absurd rfl hcne
            | cons a t => simp
          have hstep : aliasSeq al start c.length =
              (aliasSeq al start (c.length - 1)).bind (fun k => List.lookup k al) := by
            rw [← hclen]
            rfl
          have hprev := hcidx (c.length - 1) (by omega)
          rw [hlast] at hprev
          rw [hstep, hprev] at hcnone
          simpa using hcnone
      · intro hcyc
        exact absurd hcyc hnocycle
    | error e =>
      obtain ⟨c, x, heeq, hxmem, hcidx⟩ := hspec.2 e hgo
      subst heeq
      have hcyc : cycleReachable al start := by
        obtain ⟨⟨i, hilt⟩, hieq⟩ := List.get_of_mem hxmem
        have ei := hcidx i (by
          simp only [List.length_append, List.length_singleton]
          omega)
        have elast := hcidx c.length (by simp)
        rw [List.get?_append hilt, List.get?_eq_get hilt, hieq] at ei
        rw [get?_concat_self] at elast
        exact ⟨i, c.length, x, hilt, ei, elast⟩
      constructor
      · intro hnc
        exact absurd hcyc hnc
      · intro _
        refine ⟨c, x, hres, hxmem, ?_, chain'_of_orbit hcidx⟩
        have h0 := hcidx 0 (by simp)
        rw [show aliasSeq al start 0 = some start from rfl] at h0
        cases hc0 : c with
        | nil =>
          subst hc0
          simp at hxmem
        | cons a t =>
          subst hc0
          simpa using h0.symm

/-- Witness for C5: an empty alias map is acyclic from `"s"`; the self-loop
map `a → a` has a reachable cycle from `"a"`. -/
theorem c5_resolve_alias_chain_witness :
    (∃ c, resolve_alias_chain [] "s" = Except.ok c ∧
      c.head? = some "s" ∧
      List.Chain' (fun a b => List.lookup a ([] : List (String × String)) = some b) c ∧
      ∃ h : c ≠ [], List.lookup (c.getLast h) ([] : List (String × String)) = none)
    ∧ (∃ c x, resolve_alias_chain [("a", "a")] "a" =
        Except.error (LauncherError.CircularAlias (c ++ [x])) ∧
        x ∈ c ∧ (c ++ [x]).head? = some "a" ∧
        List.Chain' (fun a b => List.lookup a [("a", "a")] = some b) (c ++ [x])) :=
  ⟨(c5_resolve_alias_chain [] "s").1 (by
      rintro ⟨i, j, x, hij, hi, hj⟩
      have hnone : ∀ n, aliasSeq ([] : List (String × String)) "s" (n + 1) = none := by
        intro n
        induction n with
        | zero => rfl
        | succ n ihn =>
          rw [show aliasSeq ([] : List (String × String)) "s" (n + 2) =
            (aliasSeq ([] : List (String × String)) "s" (n + 1)).bind
              (fun k => List.lookup k ([] : List (String × String))) from rfl, ihn]
          rfl
      match j, hij with
      | j + 1, _ => rw [hnone j] at hj; cases hj),
   (c5_resolve_alias_chain [("a", "a")] "a").2 ⟨0, 1, "a", Nat.zero_lt_one, rfl, rfl⟩⟩

/-! ## Theorems about the recursive definition resolver -/

theorem resolveRecursiveF_succ_base (L : Launcher) (fuel : Nat) (app : App)
    (h1 : isRunnerRef app.exec.bin = false) :
    resolveRecursiveF L (fuel + 1) app =
      some (Except.ok ⟨app.exec.bin, app.exec.args,
        match app.env with
        | some e => extendEnv emptyEnv e
        | none => emptyEnv⟩) := by
  simp [resolveRecursiveF, h1]

theorem resolveRecursiveF_succ_runner (L : Launcher) (fuel : Nat) (app R : App)
    (h1 : isRunnerRef app.exec.bin = true)
    (h2 : ¬app.exec.bin.toList.length < 2)
    (hload : loadAppF L fuel (String.mk (app.exec.bin.toList.drop 1)) = some (Except.ok R)) :
    resolveRecursiveF L (fuel + 1) app =
      match resolveRecursiveF L fuel R with
      | none => none
      | some (Except.error e) => some (Except.error e)
      | some (Except.ok parts) =>
        some (Except.ok
          { bin := parts.bin
            args := if parts.args = [] then app.exec.args
                    else sandwich_args parts.args app.exec.args
            env := match app.env with
                   | some e => extendEnv parts.env e
                   | none => parts.env }) := by
  simp only [resolveRecursiveF, h1, if_true, h2, if_false, hload]

theorem resolveRecursiveF_succ_runner_stuck (L : Launcher) (fuel : Nat) (app : App)
    (h1 : isRunnerRef app.exec.bin = true)
    (h2 : ¬app.exec.bin.toList.length < 2)
    (hload : loadAppF L fuel (String.mk (app.exec.bin.toList.drop 1)) = none) :
    resolveRecursiveF L (fuel + 1) app = none := by
  simp only [resolveRecursiveF, h1, if_true, h2, if_false, hload]

/-- Test fixture for C1: `appA` runs `@appB` with its own args. -/
def appA (argsA : List String) : App := ⟨none, ⟨"@appB", argsA⟩, none⟩

/-- Test fixture for C1: `appB` runs `@appC` with its own args. -/
def appB (argsB : List String) : App := ⟨none, ⟨"@appC", argsB⟩, none⟩

/-- Test fixture for C1: `appC` is a literal binary whose args are `["%!"]`. -/
def appC (binC : String) : App := ⟨none, ⟨binC, ["%!"]⟩, none⟩

/-- Test fixture for C1: a launcher indexing the three apps `appA → appB → appC`. -/
def tripleLauncher (binC : String) (argsA argsB : List String) : Launcher :=
  ⟨[("appA", "pA"), ("appB", "pB"), ("appC", "pC")],
   [("pA", appA argsA), ("pB", appB argsB), ("pC", appC binC)],
   ⟨true, none, [], fun _ => none, fun _ => none⟩, false, none⟩

/-- C1: as the recursion unwinds, a layer whose runner resolved to `inner`
keeps `inner`'s binary and merges argument lists: with `inner.args`
non-empty the result is the sandwich merge (inner args as parent, the
layer's own args as child), with `inner.args` empty the result is exactly
the layer's own args.  Consequently, on the three-app chain
`appA → appB → appC` with `appC`'s args `["%!"]`, resolving `appA` yields
`appC`'s literal binary and the sandwich of C's, B's and A's argument lists
in indirection order. -/
theorem c1_recursive_resolution_merge :
    (∀ (L : Launcher) (fuel : Nat) (D R : App) (inner : ResolvedParts),
      isRunnerRef D.exec.bin = true →
      ¬D.exec.bin.toList.length < 2 →
      loadAppF L fuel (String.mk (D.exec.bin.toList.drop 1)) = some (Except.ok R) →
      resolveRecursiveF L fuel R = some (Except.ok inner) →
      ∃ res, resolveRecursiveF L (fuel + 1) D = some (Except.ok res) ∧
        res.bin = inner.bin ∧
        (inner.args ≠ [] → res.args = sandwich_args inner.args D.exec.args) ∧
        (inner.args = [] → res.args = D.exec.args))
    ∧ (∀ (binC : String) (argsA argsB : List String),
      isRunnerRef binC = false →
      resolveRecursiveF (tripleLauncher binC argsA argsB) 5 (appA argsA) =
        some (Except.ok
          ⟨binC, sandwich_args (sandwich_args ["%!"] argsB) argsA, emptyEnv⟩)) := by
  constructor
  · intro L fuel D R inner h1 h2 hload hinner
    rw [resolveRecursiveF_succ_runner L fuel D R h1 h2 hload, hinner]
    refine ⟨_, rfl, rfl, fun hne => ?_, fun he => ?_⟩
    · simp [hne]
    · simp [he]
  · intro binC argsA argsB hbin
    have hloadB : loadAppF (tripleLauncher binC argsA argsB) 4 "appB" =
        some (Except.ok (appB argsB)) := rfl
    have hloadC : loadAppF (tripleLauncher binC argsA argsB) 3 "appC" =
        some (Except.ok (appC binC)) := rfl
    have h2B : ¬(appB argsB).exec.bin.toList.length < 2 := by
      change ¬("@appC" : String).toList.length < 2
      decide
    have h2A : ¬(appA argsA).exec.bin.toList.length < 2 := by
      change ¬("@appB" : String).toList.length < 2
      decide
    have hC : resolveRecursiveF (tripleLauncher binC argsA argsB) 3 (appC binC) =
        some (Except.ok ⟨binC, ["%!"], emptyEnv⟩) := by
      rw [resolveRecursiveF_succ_base _ 2 _ hbin]
      rfl
    have hB : resolveRecursiveF (tripleLauncher binC argsA argsB) 4 (appB argsB) =
        some (Except.ok ⟨binC, sandwich_args ["%!"] argsB, emptyEnv⟩) := by
      rw [resolveRecursiveF_succ_runner _ 3 (appB argsB) (appC binC) rfl h2B hloadC, hC]
      rfl
    have hsw : sandwich_args ["%!"] argsB = argsB := by
      rw [show (["%!"] : List String) = "%!" :: [] from rfl, sandwich_args_marker]
      simp
    rw [resolveRecursiveF_succ_runner _ 4 (appA argsA) (appB argsB) rfl h2A hloadB, hB,
      hsw]
    rcases Decidable.em (argsB = []) with hB0 | hB0
    · subst hB0
      simp [sandwich_args_nil, appA]
    · simp [hB0, appA]

/-- Witness for C1 at concrete argument lists. -/
theorem c1_recursive_resolution_merge_witness :
    (∃ res, resolveRecursiveF (tripleLauncher "doom" ["a"] ["b", "%!"]) 5
        (appB ["b", "%!"]) = some (Except.ok res) ∧
      res.bin = "doom" ∧
      (["%!"] ≠ ([] : List String) → res.args = sandwich_args ["%!"] ["b", "%!"]) ∧
      (["%!"] = ([] : List String) → res.args = ["b", "%!"]))
    ∧ resolveRecursiveF (tripleLauncher "doom" ["a"] ["b", "%!"]) 5 (appA ["a"]) =
        some (Except.ok ⟨"doom", sandwich_args (sandwich_args ["%!"] ["b", "%!"]) ["a"],
          emptyEnv⟩) :=
  ⟨c1_recursive_resolution_merge.1 (tripleLauncher "doom" ["a"] ["b", "%!"]) 4
      (appB ["b", "%!"]) (appC "doom") ⟨"doom", ["%!"], emptyEnv⟩ rfl (by decide) rfl
      (by
        rw [resolveRecursiveF_succ_base (tripleLauncher "doom" ["a"] ["b", "%!"]) 3
          (appC "doom") rfl]
        rfl),
   c1_recursive_resolution_merge.2 "doom" ["a"] ["b", "%!"] rfl⟩

/-- Test fixture for C6: an app whose binary is the runner marker followed
by its own (non-aliased) app name. -/
def selfApp : App := ⟨none, ⟨"@selfapp", []⟩, none⟩

/-- Test fixture for C6: a launcher indexing `selfApp` under the name its
own binary refers back to (no aliases involved). -/
def selfAppLauncher : Launcher :=
  ⟨[("selfapp", "pself")], [("pself", selfApp)],
   ⟨true, none, [], fun _ => none, fun _ => none⟩, false, none⟩

/-- C6: the recursive definition resolver tracks no visited runner names of
its own — each nested lookup goes through `find_app` with a fresh empty
stack, so on the self-referential `selfApp` every lookup succeeds again
(first conjunct) and the recursion never reaches a base case: it exhausts
any amount of fuel (second conjunct), i.e. `resolve_recursive` diverges and
is total only under acyclicity of the runner-reference chain. -/
theorem c6_self_runner_divergence :
    (∀ fuel : Nat, loadAppF selfAppLauncher (fuel + 1) "selfapp" = some (Except.ok selfApp))
    ∧ (∀ fuel : Nat, resolveRecursiveF selfAppLauncher fuel selfApp = none) := by
  have hload : ∀ fuel : Nat,
      loadAppF selfAppLauncher (fuel + 1) "selfapp" = some (Except.ok selfApp) := by
    intro fuel
    rfl
  refine ⟨hload, ?_⟩
  intro fuel
  induction fuel using Nat.strong_induction_on with
  | _ fuel ih =>
    match fuel with
    | 0 => rfl
    | 1 => rfl
    | fuel + 2 =>
      rw [resolveRecursiveF_succ_runner selfAppLauncher (fuel + 1) selfApp selfApp rfl
        (by decide) (hload fuel), ih (fuel + 1) (by omega)]

/-- C8 fixture: the inner app, a literal binary defining `K ↦ inner`. -/
def envInner : App :=
  ⟨none, ⟨"inner-bin", []⟩, some (fun k => if k = "K" then some "inner" else none)⟩

/-- C8 fixture: the outer app runs `@einner` and overrides `K ↦ outer`. -/
def envOuter : App :=
  ⟨none, ⟨"@einner", []⟩, some (fun k => if k = "K" then some "outer" else none)⟩

/-- C8 fixture: a launcher indexing `envInner` with a global config env
defining `K ↦ cfg`. -/
def envLauncher : Launcher :=
  ⟨[("einner", "pE")], [("pE", envInner)],
   ⟨true, none, [], fun _ => none, fun k => if k = "K" then some "cfg" else none⟩,
   false, none⟩

/-- C8: per-key environment precedence.  First conjunct: when the recursion
unwinds, a layer's env override wins per key over the inner result (and
keys it does not define fall through to the inner result).  Second
conjunct: in the launch-environment layering, the resolved per-app env
overrides the global config env, which overrides the CLI-supplied env. -/
theorem c8_env_precedence :
    (∀ (L : Launcher) (fuel : Nat) (D R : App) (inner : ResolvedParts) (e : Env) (k : String),
      isRunnerRef D.exec.bin = true →
      ¬D.exec.bin.toList.length < 2 →
      loadAppF L fuel (String.mk (D.exec.bin.toList.drop 1)) = some (Except.ok R) →
      resolveRecursiveF L fuel R = some (Except.ok inner) →
      D.env = some e →
      ∃ res, resolveRecursiveF L (fuel + 1) D = some (Except.ok res) ∧
        (∀ v, e k = some v → res.env k = some v) ∧
        (e k = none → res.env k = inner.env k))
    ∧ (∀ (L : Launcher) (cliEnv partsEnv : Env) (k : String),
      (∀ v, partsEnv k = some v → launchFinalEnv L cliEnv partsEnv k = some v) ∧
      (partsEnv k = none → ∀ v, L.config.env k = some v →
        launchFinalEnv L cliEnv partsEnv k = some v) ∧
      (partsEnv k = none → L.config.env k = none →
        launchFinalEnv L cliEnv partsEnv k = cliEnv k)) := by
  constructor
  · intro L fuel D R inner e k h1 h2 hload hinner henv
    rw [resolveRecursiveF_succ_runner L fuel D R h1 h2 hload, hinner]
    refine ⟨_, rfl, fun v hv => ?_, fun hv => ?_⟩
    · simp [henv, extendEnv, hv]
    · simp [henv, extendEnv, hv]
  · intro L cliEnv partsEnv k
    refine ⟨fun v hv => ?_, fun hp v hv => ?_, fun hp hc => ?_⟩
    · simp [launchFinalEnv, extendEnv, hv]
    · simp [launchFinalEnv, extendEnv, hp, hv]
    · simp [launchFinalEnv, extendEnv, hp, hc]

/-- Witness for C8: on the `envOuter → envInner` chain the outer override
wins, and in the launch layering the per-app entry beats the config and CLI
entries. -/
theorem c8_env_precedence_witness :
    (∃ res, resolveRecursiveF envLauncher 2 envOuter = some (Except.ok res) ∧
      res.env "K" = some "outer")
    ∧ launchFinalEnv envLauncher (fun k => if k = "K" then some "cli" else none)
        (fun k => if k = "K" then some "app" else none) "K" = some "app" := by
  constructor
  · obtain ⟨res, hres, hwin, _⟩ :=
      c8_env_precedence.1 envLauncher 1 envOuter envInner
        ⟨"inner-bin", [], extendEnv emptyEnv (fun k => if k = "K" then some "inner" else none)⟩
        (fun k => if k = "K" then some "outer" else none) "K"
        rfl (by decide) rfl
        (by
          rw [resolveRecursiveF_succ_base envLauncher 0 envInner rfl]
          rfl)
        rfl
    exact ⟨res, hres, hwin "outer" rfl⟩
  · exact (c8_env_precedence.2 envLauncher
      (fun k => if k = "K" then some "cli" else none)
      (fun k => if k = "K" then some "app" else none) "K").1 "app" rfl

/-! ## Theorems about the app resolver -/

/-- Fixture for C7: two apps sharing the leaf name `doom`, with interaction
unavailable (interactive flag off and stdout not a terminal). -/
def doomLauncher : Launcher :=
  ⟨[("games/doom", "p1"), ("tools/doom", "p2")], [],
   ⟨false, none, [], fun _ => none, fun _ => none⟩, false, none⟩

/-- C7: the app-resolution failure contract.  A query empty after trimming
whitespace and slashes fails with `AppNotFound`; past alias resolution, a
trimmed query matching no app's full name or leaf name fails with
`AppNotFound`; exactly one match returns that app's path; several matches
with interaction unavailable (interactive flag false or stdout not a tty)
fail with `AmbiguousQuery` carrying the query and all candidate paths. -/
theorem c7_find_app_failure_contract :
    (∀ (L : Launcher) (fuel : Nat) (query : String) (stack : List String),
      query ∉ stack →
      trimQuery query = "" →
      findAppInnerF L (fuel + 1) query stack =
        some (Except.error (LauncherError.AppNotFound "")))
    ∧ (∀ (L : Launcher) (fuel : Nat) (query : String) (stack : List String),
      query ∉ stack →
      trimQuery query ≠ "" →
      List.lookup (trimQuery query) L.config.«alias» = none →
      appMatches L (trimQuery query) = [] →
      findAppInnerF L (fuel + 1) query stack =
        some (Except.error (LauncherError.AppNotFound (trimQuery query))))
    ∧ (∀ (L : Launcher) (fuel : Nat) (query : String) (stack : List String)
        (m : String × String),
      query ∉ stack →
      trimQuery query ≠ "" →
      List.lookup (trimQuery query) L.config.«alias» = none →
      appMatches L (trimQuery query) = [m] →
      findAppInnerF L (fuel + 1) query stack = some (Except.ok m.2))
    ∧ (∀ (L : Launcher) (fuel : Nat) (query : String) (stack : List String)
        (m1 m2 : String × String) (ms : List (String × String)),
      query ∉ stack →
      trimQuery query ≠ "" →
      List.lookup (trimQuery query) L.config.«alias» = none →
      appMatches L (trimQuery query) = m1 :: m2 :: ms →
      (L.config.interactive = false ∨ L.stdoutTty = false) →
      findAppInnerF L (fuel + 1) query stack =
        some (Except.error (LauncherError.AmbiguousQuery (trimQuery query)
          ((m1 :: m2 :: ms).map Prod.snd)))) := by
  refine ⟨?_, ?_, ?_, ?_⟩
  · intro L fuel query stack hstack hq
    simp [findAppInnerF, hstack, hq]
  · intro L fuel query stack hstack hq halias hm
    simp [findAppInnerF, hstack, hq, halias, hm]
  · intro L fuel query stack m hstack hq halias hm
    simp [findAppInnerF, hstack, hq, halias, hm]
  · intro L fuel query stack m1 m2 ms hstack hq halias hm hni
    rcases hni with hni | hni
    · simp [findAppInnerF, hstack, hq, halias, hm, app_resolver, hni]
    · simp [findAppInnerF, hstack, hq, halias, hm, app_resolver, hni]

/-- Witness for C7 on the two-`doom` launcher and on empty queries. -/
theorem c7_find_app_failure_contract_witness :
    findAppInnerF doomLauncher 5 "" [] =
      some (Except.error (LauncherError.AppNotFound ""))
    ∧ findAppInnerF doomLauncher 5 "///" [] =
      some (Except.error (LauncherError.AppNotFound ""))
    ∧ findAppInnerF doomLauncher 5 "nosuch" [] =
      some (Except.error (LauncherError.AppNotFound "nosuch"))
    ∧ findAppInnerF doomLauncher 5 "games/doom" [] = some (Except.ok "p1")
    ∧ findAppInnerF doomLauncher 5 "doom" [] =
      some (Except.error (LauncherError.AmbiguousQuery "doom" ["p1", "p2"])) :=
  ⟨c7_find_app_failure_contract.1 doomLauncher 4 "" [] (by simp) (by decide),
   c7_find_app_failure_contract.1 doomLauncher 4 "///" [] (by simp) (by decide),
   c7_find_app_failure_contract.2.1 doomLauncher 4 "nosuch" [] (by simp) (by decide) rfl
     (by decide),
   c7_find_app_failure_contract.2.2.1 doomLauncher 4 "games/doom" [] ("games/doom", "p1")
     (by simp) (by decide) rfl (by decide),
   c7_find_app_failure_contract.2.2.2 doomLauncher 4 "doom" [] ("games/doom", "p1")
     ("tools/doom", "p2") [] (by simp) (by decide) rfl (by decide) (Or.inl rfl)⟩

/-- Fixture for C9: `x` is simultaneously an alias (to `y`) and a literal
app name; both `x` and `y` are indexed apps. -/
def aliasShadowLauncher : Launcher :=
  ⟨[("x", "px"), ("y", "py")], [],
   ⟨true, none, [("x", "y")], fun _ => none, fun _ => none⟩, false, none⟩

/-- C9: alias resolution is checked before literal name matching and wins —
a trimmed query that is an alias key recurses on the alias target with the
query pushed on the visited stack, regardless of the app index; a query
already on the stack fails with `CircularAlias`; and on the fixture where
`x` names both an alias and an app, the query `x` resolves to `y`'s path. -/
theorem c9_alias_checked_first :
    (∀ (L : Launcher) (fuel : Nat) (query target : String) (stack : List String),
      query ∉ stack →
      trimQuery query ≠ "" →
      List.lookup (trimQuery query) L.config.«alias» = some target →
      findAppInnerF L (fuel + 1) query stack =
        findAppInnerF L fuel target (stack ++ [trimQuery query]))
    ∧ (∀ (L : Launcher) (fuel : Nat) (query : String) (stack : List String),
      query ∈ stack →
      findAppInnerF L (fuel + 1) query stack =
        some (Except.error (LauncherError.CircularAlias (stack ++ [query]))))
    ∧ find_app aliasShadowLauncher 5 "x" = some (Except.ok "py") := by
  refine ⟨?_, ?_, rfl⟩
  · intro L fuel query target stack hstack hq halias
    simp [findAppInnerF, hstack, hq, halias]
  · intro L fuel query stack hstack
    simp [findAppInnerF, hstack]

/-- Witness for C9: one alias step on the shadowing fixture, and the
circular-alias failure when the query is already on the stack. -/
theorem c9_alias_checked_first_witness :
    findAppInnerF aliasShadowLauncher 5 "x" [] =
      findAppInnerF aliasShadowLauncher 4 "y" ["x"]
    ∧ findAppInnerF aliasShadowLauncher 5 "x" ["x"] =
      some (Except.error (LauncherError.CircularAlias ["x", "x"])) :=
  ⟨c9_alias_checked_first.1 aliasShadowLauncher 4 "x" "y" [] (by simp) (by decide) rfl,
   c9_alias_checked_first.2.1 aliasShadowLauncher 4 "x" ["x"] (by simp)⟩

end Ran
